import Mathlib

/-!
Verification of the `pdf_converter` batch-conversion module
(`src/pdf_converter/__init__.py`).

The module keeps a ZIP archive mapping derived filenames to converted
document content and orchestrates per-row PDF download + conversion over a
pandas DataFrame.  We embed the archive as an association list of
(filename, content) entries kept in file order, a DataFrame row as its two
relevant cells (naming cell and URL cell, `none` modelling pandas NaN),
and the download/subprocess collaborators as explicit outcome values.
-/

namespace PdfConv

/-- An archive entry: filename and stored content.  The Python code writes
UTF-8 text (`markdown.encode("utf-8")`, or a `str` handed to `writestr`),
so we keep content as the text itself; byte-for-byte preservation of an
entry is equality of this field. -/
abbrev Entry := String × String

/-- A ZIP archive: its entries in file order (`zf.infolist()` order). -/
abbrev Zip := List Entry

/-- The names present in an archive, in order (`zf.namelist()`). -/
def zipNames (z : Zip) : List String := z.map Prod.fst

/-- The character class `[a-zA-Z0-9_\-.]` of `safe_filename`'s regex. -/
def isSafeChar (c : Char) : Bool :=
  decide ('a' ≤ c ∧ c ≤ 'z') || decide ('A' ≤ c ∧ c ≤ 'Z') ||
    decide ('0' ≤ c ∧ c ≤ '9') || c == '_' || c == '-' || c == '.'

/-- One character of `re.sub(r"[^a-zA-Z0-9_\-.]", "_", name)`: characters
outside the safe class are replaced by an underscore. -/
def sanChar (c : Char) : Char := if isSafeChar c then c else '_'

/-- `safe_filename` on a string (`__init__.py` line 21): every character
outside `[a-zA-Z0-9_\-.]` is replaced by `_`.  The `str()` coercion of
lines 19-20 is modelled by `safe_filename_py` below. -/
def safe_filename (name : String) : String := ⟨name.data.map sanChar⟩

/-- A Python value handed to `safe_filename`: either a `str`, used as is,
or any other object, which line 20 renders with `str()`; we model the
non-str object by its `str()` rendering, which exists for every Python
object, so the function is total on all inputs. -/
inductive PyValue where
  | pystr (s : String)
  | other (rendered : String)
deriving Repr, DecidableEq

/-- `safe_filename` including the `isinstance`/`str()` coercion of
lines 19-20. -/
def safe_filename_py : PyValue → String
  | .pystr s => safe_filename s
  | .other rendered => safe_filename rendered

/-- `zf_in.read(item.filename)` (line 32): `ZipFile.read` resolves the
name through the `NameToInfo` index, which is built by iterating the
central directory in order and therefore maps a duplicated entry name to
its **last** entry; `read` returns that entry's bytes.  The names read by
`replace_in_zip` always occur in the archive; an absent name (a
`KeyError` in Python) is given the empty default here. -/
def readByName (zip : Zip) (n : String) : String :=
  ((zip.reverse.find? fun e => e.1 == n).map Prod.snd).getD ""

/-- `replace_in_zip` (lines 24-34) as a transformation of archive
contents: for every input entry whose filename differs from `filename`,
write an entry with the same filename whose content is
`zf_in.read(item.filename)` — a lookup **by name**, so on duplicated
names every copy receives the last duplicate's bytes — then write
`content` under `filename`; the final rename makes this the new archive.
On an archive whose entry names are pairwise distinct this copies every
other entry unchanged. -/
def replace_in_zip (zip : Zip) (filename : String) (content : String) : Zip :=
  ((zip.filter fun item => item.1 != filename).map
    fun item => (item.1, readByName zip item.1)) ++ [(filename, content)]

/-- The visible filesystem during `replace_in_zip`: the archive at
`zip_path` and the temporary archive at the `.tmp.zip` path (if present). -/
structure FileSystem where
  main : Zip
  temp : Option Zip
deriving Repr, DecidableEq

/-- The sequence of filesystem states visited by `replace_in_zip`
(lines 24-34): the initial state; the state after opening the temporary
archive for write and after each of the `zf_in.infolist()` loop
iterations (after processing the first `j` input entries the temporary
archive holds their copies, minus any entry named `filename`); the state
after `zf_out.writestr(filename, content)`; and the state after
`temp_zip_path.replace(zip_path)`, the atomic rename. -/
def replaceStates (zip : Zip) (filename content : String) : List FileSystem :=
  ⟨zip, none⟩ ::
    ((List.range (zip.length + 1)).map fun j =>
      ⟨zip, some (((zip.take j).filter fun item => item.1 != filename).map
        fun item => (item.1, readByName zip item.1))⟩) ++
    [⟨zip, some (((zip.filter fun item => item.1 != filename).map
        fun item => (item.1, readByName zip item.1)) ++ [(filename, content)])⟩,
     ⟨replace_in_zip zip filename content, none⟩]

/-- One DataFrame row restricted to the two columns the orchestrator
reads: the naming cell (`md_name_column` / `txt_name_column`) and the URL
cell.  `none` models a pandas missing value (NaN), dropped by `dropna`;
present cells are strings. -/
structure Row where
  nameVal : Option String
  urlVal : Option String
deriving Repr, DecidableEq

/-- The URL value the loop passes to the converter (`itertuples` hands
over the original cell). -/
def urlOf (r : Row) : String := r.urlVal.getD ""

/-- The derived target filename of a row:
`safe_filename(str(cell)) + suffix` (`_build_filenames`, line 51), where
`suffix` is `"_{method}.md"` or `"_{method}.txt"`. -/
def fileName (suffix : String) (r : Row) : String :=
  safe_filename (r.nameVal.getD "") ++ suffix

/-- Lines 126-127: `df[[name, url]].dropna()` keeps rows where both cells
are present; the second filter keeps rows whose URL string is non-empty
(`astype(str).str.len() > 0`).  Note the emptiness test is applied to the
URL column only. -/
def validRows (df : List Row) : List Row :=
  (df.filter fun r => r.nameVal.isSome && r.urlVal.isSome).filter
    fun r => decide (0 < (r.urlVal.getD "").length)

/-- Lines 134-135: unless `replace_all`, drop rows whose target filename
is already among the archive's names. -/
def survivors (df : List Row) (existing : List String) (replace_all : Bool)
    (suffix : String) : List Row :=
  if replace_all then validRows df
  else (validRows df).filter fun r => !(existing.contains (fileName suffix r))

/-- `drop_duplicates(subset="__filename", keep="first")` (line 138):
keep each row whose key has not been seen yet, accumulating seen keys. -/
def dedupBy (key : Row → String) : List Row → List String → List Row
  | [], _ => []
  | r :: rs, seen =>
    if seen.contains (key r) then dedupBy key rs seen
    else r :: dedupBy key rs (key r :: seen)

/-- The rows the loop at line 147 actually iterates: valid rows, filtered
against the existing names (unless `replace_all`), de-duplicated by
target filename keeping the first occurrence. -/
def finalRows (df : List Row) (existing : List String) (replace_all : Bool)
    (suffix : String) : List Row :=
  dedupBy (fileName suffix) (survivors df existing replace_all suffix) []

/-- Python `str.strip()` whitespace (the ASCII part; the rows in play hold
ASCII markdown/text).  `not markdown or not markdown.strip()` is true
exactly when every character is whitespace (vacuously for the empty
string). -/
def isPySpace (c : Char) : Bool :=
  c == ' ' || c == '\t' || c == '\n' || c == '\r' || c == '\x0b' || c == '\x0c'

/-- Whether a conversion result is treated as "no output": empty or
whitespace-only (line 150 for Markdown; line 244's `if text.strip():` is
the same condition negated). -/
def isBlank (s : String) : Bool := s.data.all isPySpace

/-- The mutable state of one batch run: the on-disk archive, the in-memory
`existing` name set (a set; we keep insertion order, membership is what is
used), and the trace of `(url, filename)` rows on which the
download-and-convert helper was invoked. -/
structure BatchState where
  zip : Zip
  existing : List String
  trace : List (String × String)
deriving Repr, DecidableEq

/-- One iteration of the loop at lines 147-163 (and 241-251): invoke the
converter on the row's URL; if the result is blank, continue without
touching the archive or the name set; otherwise `replace_in_zip` the
entry and add the filename to the name set. -/
def step (convert : String → String) (suffix : String) (st : BatchState)
    (r : Row) : BatchState :=
  let url := urlOf r
  let filename := fileName suffix r
  let markdown := convert url
  let st1 : BatchState := { st with trace := st.trace ++ [(url, filename)] }
  if isBlank markdown then st1
  else { st1 with
          zip := replace_in_zip st1.zip filename markdown,
          existing := st1.existing ++ [filename] }

/-- The shared shape of `create_markdown_from_column` (lines 114-169) and
`create_text_from_column` (lines 213-257), whose bodies are identical up
to the suffix and the converter: load the existing names, filter and
de-duplicate the rows, then run the per-row loop.  `convert` is the
download-and-convert helper treated as a deterministic function of the
URL.  A missing archive is created empty by `_ensure_zip`; pass `[]` for
it. -/
def runBatch (convert : String → String) (df : List Row) (suffix : String)
    (zip0 : Zip) (replace_all : Bool) : BatchState :=
  (finalRows df (zipNames zip0) replace_all suffix).foldl (step convert suffix)
    ⟨zip0, zipNames zip0, []⟩

/-- Result of one orchestrator call: its effects and its Python return
value.  The function bodies end without a `return` statement carrying a
value (only the bare early `return` at lines 142/237), so the Python
return value is `None` on every input; `ret` records it. -/
structure BatchResult where
  state : BatchState
  ret : Option (List Row)
deriving Repr, DecidableEq

/-- `create_markdown_from_column` (lines 114-169): suffix
`"_{method}.md"`; returns `None`. -/
def create_markdown_from_column (convert : String → String) (df : List Row)
    (method : String) (zip0 : Zip) (replace_all : Bool) : BatchResult :=
  ⟨runBatch convert df ("_" ++ method ++ ".md") zip0 replace_all, none⟩

/-- `create_text_from_column` (lines 213-257): suffix `"_{method}.txt"`;
returns `None`. -/
def create_text_from_column (convert : String → String) (df : List Row)
    (method : String) (zip0 : Zip) (replace_all : Bool) : BatchResult :=
  ⟨runBatch convert df ("_" ++ method ++ ".txt") zip0 replace_all, none⟩

/-- Outcome of the download at lines 85-92: either the PDF was fetched and
written, or `requests.get` / `raise_for_status` / the file write raised. -/
inductive FetchOutcome where
  | ok
  | fail
deriving Repr, DecidableEq

/-- Outcome of the `subprocess.run` call at lines 96-101: the child
finished with a return code, stdout and stderr; or the 300 s timeout
expired; or an unexpected exception was raised. -/
inductive SubprocOutcome where
  | finished (returncode : Int) (stdout : String) (stderr : String)
  | timedOut
  | raised
deriving Repr, DecidableEq

/-- `convert_pdf_to_md` (lines 72-111) as a function of the outcomes of
its two effectful collaborators: any download error returns `""`; a
non-zero exit status, a timeout or an exception in the subprocess returns
`""`; otherwise the child's stdout is returned.  (`convert_pdf_to_txt`,
lines 172-210, is the same code with the other worker script.) -/
def convert_pdf_to_md (fetch : FetchOutcome) (run : SubprocOutcome) : String :=
  match fetch with
  | .fail => ""
  | .ok =>
    match run with
    | .finished rc out _ => if rc != 0 then "" else out
    | .timedOut => ""
    | .raised => ""

/-- The entries a loop over `rows` writes: one per row whose conversion
output is non-blank, holding that output under the row's filename. -/
def writesOf (convert : String → String) (suffix : String)
    (rows : List Row) : Zip :=
  rows.filterMap fun r =>
    if isBlank (convert (urlOf r)) then none
    else some (fileName suffix r, convert (urlOf r))

end PdfConv

namespace PdfConv

/-! ### Helper lemmas about `safe_filename` -/

lemma isSafeChar_sanChar (c : Char) : isSafeChar (sanChar c) = true := by
  unfold sanChar
  cases h : isSafeChar c
  · rw [if_neg (by simp [h])]
    decide
  · rw [if_pos (by simp [h])]
    exact h

lemma sanChar_of_safe (c : Char) (h : isSafeChar c = true) : sanChar c = c := by
  simp [sanChar, h]

lemma sanChar_idem (c : Char) : sanChar (sanChar c) = sanChar c :=
  sanChar_of_safe _ (isSafeChar_sanChar c)

lemma safe_filename_all_safe (s : String) :
    (safe_filename s).data.all isSafeChar = true := by
  rw [List.all_eq_true]
  intro c hc
  rcases List.mem_map.mp hc with ⟨a, _, rfl⟩
  exact isSafeChar_sanChar a

lemma safe_filename_idem (s : String) :
    safe_filename (safe_filename s) = safe_filename s := by
  show String.mk _ = String.mk _
  rw [show (safe_filename s).data = s.data.map sanChar from rfl, List.map_map]
  exact congrArg String.mk (List.map_congr_left fun c _ => sanChar_idem c)

/-! ### Helper lemmas about `replace_in_zip` -/

lemma zipNames_append (a b : Zip) :
    zipNames (a ++ b) = zipNames a ++ zipNames b := by
  simp [zipNames]

lemma filter_ne_of_not_mem (zip : Zip) (name : String)
    (h : name ∉ zipNames zip) : (zip.filter fun e => e.1 != name) = zip := by
  rw [List.filter_eq_self]
  intro e he
  simp only [bne_iff_ne, ne_eq]
  intro hcontra
  exact h (hcontra ▸ List.mem_map_of_mem Prod.fst he)

lemma find?_fst_of_nodup (l : Zip) (e : Entry)
    (hnd : (l.map Prod.fst).Nodup) (he : e ∈ l) :
    l.find? (fun x => x.1 == e.1) = some e := by
  induction l with
  | nil => cases he
  | cons x xs ih =>
    rw [List.map_cons] at hnd
    rcases List.nodup_cons.mp hnd with ⟨hx, hnd2⟩
    rcases List.mem_cons.mp he with rfl | hmem
    · rw [List.find?_cons_of_pos _ (by simp)]
    · have hne : x.1 ≠ e.1 := by
        intro hcontra
        exact hx (hcontra ▸ List.mem_map_of_mem Prod.fst hmem)
      rw [List.find?_cons_of_neg _ (by simpa using hne)]
      exact ih hnd2 hmem

lemma readByName_of_nodup (zip : Zip) (e : Entry)
    (hnd : (zipNames zip).Nodup) (he : e ∈ zip) :
    readByName zip e.1 = e.2 := by
  have hnd2 : (zip.reverse.map Prod.fst).Nodup := by
    rw [List.map_reverse]
    exact List.nodup_reverse.mpr hnd
  have hfind := find?_fst_of_nodup zip.reverse e hnd2 (List.mem_reverse.mpr he)
  rw [readByName, hfind]
  rfl

lemma readByName_mem (zip : Zip) (n : String) (h : n ∈ zipNames zip) :
    (n, readByName zip n) ∈ zip := by
  have hsome : (zip.reverse.find? fun x => x.1 == n).isSome := by
    rw [List.find?_isSome]
    rcases List.mem_map.mp h with ⟨e, he, rfl⟩
    exact ⟨e, List.mem_reverse.mpr he, by simp⟩
  rcases Option.isSome_iff_exists.mp hsome with ⟨e, hfind⟩
  have hpe : e.1 = n := by simpa using List.find?_some hfind
  have hme : e ∈ zip := List.mem_reverse.mp (List.mem_of_find?_eq_some hfind)
  have hval : readByName zip n = e.2 := by rw [readByName, hfind]; rfl
  rw [hval, ← hpe]
  simpa using hme

lemma zipNames_replace (zip : Zip) (g c : String) :
    zipNames (replace_in_zip zip g c) =
      zipNames (zip.filter fun item => item.1 != g) ++ [g] := by
  unfold replace_in_zip
  rw [zipNames_append]
  congr 1
  unfold zipNames
  rw [List.map_map]
  exact List.map_congr_left fun item _ => rfl

lemma replace_in_zip_nodup_eq (zip : Zip) (g c : String)
    (hnd : (zipNames zip).Nodup) :
    replace_in_zip zip g c =
      (zip.filter fun item => item.1 != g) ++ [(g, c)] := by
  unfold replace_in_zip
  congr 1
  have h2 : ∀ item ∈ zip.filter (fun item => item.1 != g),
      (item.1, readByName zip item.1) = item := by
    intro item hitem
    rw [readByName_of_nodup zip item hnd ((List.mem_filter.mp hitem).1)]
  rw [List.map_congr_left h2, List.map_id']

lemma zipNames_replace_fresh (zip : Zip) (g c : String)
    (h : g ∉ zipNames zip) :
    zipNames (replace_in_zip zip g c) = zipNames zip ++ [g] := by
  rw [zipNames_replace, filter_ne_of_not_mem zip g h]

lemma replace_names_nodup (zip : Zip) (g c : String)
    (hnd : (zipNames zip).Nodup) :
    (zipNames (replace_in_zip zip g c)).Nodup := by
  rw [zipNames_replace, List.nodup_append]
  refine ⟨?_, by simp, ?_⟩
  · exact hnd.sublist (List.Sublist.map Prod.fst (List.filter_sublist zip))
  · intro a ha hb
    have hb1 : a = g := by simpa using hb
    rcases List.mem_map.mp ha with ⟨e, he, rfl⟩
    have h3 := (List.mem_filter.mp he).2
    simp only [bne_iff_ne, ne_eq, decide_eq_true_eq] at h3
    exact h3 hb1

lemma replace_filter_self (zip : Zip) (name content : String) :
    (replace_in_zip zip name content).filter (fun e => e.1 == name) =
      [(name, content)] := by
  unfold replace_in_zip
  rw [List.filter_append]
  have h1 : (((zip.filter fun item => item.1 != name).map
      fun item => (item.1, readByName zip item.1)).filter
      fun e => e.1 == name) = [] := by
    rw [List.filter_eq_nil_iff]
    intro e he
    rcases List.mem_map.mp he with ⟨item, hitem, rfl⟩
    have h3 := (List.mem_filter.mp hitem).2
    simpa using h3
  rw [h1]
  simp

lemma replace_filter_ne_nodup (zip : Zip) (name content : String)
    (hnd : (zipNames zip).Nodup) :
    ((replace_in_zip zip name content).filter fun e => e.1 != name) =
      (zip.filter fun e => e.1 != name) := by
  rw [replace_in_zip_nodup_eq zip name content hnd]
  rw [List.filter_append, List.filter_filter]
  simp

lemma replace_count_ne_nodup (zip : Zip) (name content : String) (e : Entry)
    (hnd : (zipNames zip).Nodup) (h : e.1 ≠ name) :
    (replace_in_zip zip name content).count e = zip.count e := by
  rw [replace_in_zip_nodup_eq zip name content hnd]
  rw [List.count_append]
  have h1 : List.count e [(name, content)] = 0 := by
    rw [List.count_singleton]
    have hb : ((name, content) == e) = false := by
      rw [beq_eq_false_iff_ne]
      intro hEq
      exact h (congrArg Prod.fst hEq).symm
    simp [hb]
  have h2 : (e.1 != name) = true := by simpa using h
  rw [h1, Nat.add_zero]
  exact List.count_filter (p := fun item => item.1 != name) (a := e) (l := zip) h2

lemma replace_in_zip_mem_entry (zip : Zip) (g c : String) (e : Entry)
    (h : e ∈ replace_in_zip zip g c) : e ∈ zip ∨ e = (g, c) := by
  unfold replace_in_zip at h
  rcases List.mem_append.mp h with h1 | h2
  · rcases List.mem_map.mp h1 with ⟨item, hitem, rfl⟩
    left
    exact readByName_mem zip item.1
      (List.mem_map_of_mem Prod.fst (List.mem_filter.mp hitem).1)
  · right
    exact List.mem_singleton.mp h2

end PdfConv

namespace PdfConv

/-- C10: `safe_filename` is total (it accepts any Python value, coercing
non-strings via `str()`, here any `PyValue`), its output consists only of
characters from `[a-zA-Z0-9_\-.]`, and it is idempotent: re-sanitizing an
already-derived filename never changes it. -/
theorem safe_filename_total_safe_idempotent (v : PyValue) (s : String) :
    (safe_filename_py v).data.all isSafeChar = true ∧
    safe_filename (safe_filename s) = safe_filename s := by
  refine ⟨?_, safe_filename_idem s⟩
  cases v
  · exact safe_filename_all_safe _
  · exact safe_filename_all_safe _

/-- C2 fails as stated on archives with duplicate entry names: replacing
`"a"` in `[("b","1"), ("b","2")]` rewrites the earlier duplicate with the
later duplicate's bytes (`zf_in.read` looks content up by name), so entry
`("b","1")` — whose filename differs from `"a"` — is not preserved. -/
theorem replace_in_zip_counterexample :
    replace_in_zip [("b", "1"), ("b", "2")] "a" "new" =
      [("b", "2"), ("b", "2"), ("a", "new")] ∧
    ("b", "1") ∈ ([("b", "1"), ("b", "2")] : Zip) ∧
    (("b", "1") : Entry).1 ≠ "a" ∧
    ("b", "1") ∉ replace_in_zip [("b", "1"), ("b", "2")] "a" "new" := by
  decide

/-- C2 corrected: on an archive whose entry names are pairwise distinct
(the invariant the cache maintains), `replace_in_zip zip name content`
holds exactly one entry under `name`, namely `content`; the sub-sequence
of entries with other filenames is unchanged (same entries, same order,
same content); and every entry with another filename keeps its
multiplicity.  Without that hypothesis the rebuild's by-name read
rewrites every duplicated entry with its last duplicate's bytes, so
other entries are not preserved byte for byte (see the
counterexample). -/
theorem replace_in_zip_correct (zip : Zip) (name content : String)
    (hnd : (zipNames zip).Nodup) :
    (replace_in_zip zip name content).filter (fun e => e.1 == name) =
        [(name, content)] ∧
    ((replace_in_zip zip name content).filter fun e => e.1 != name) =
        (zip.filter fun e => e.1 != name) ∧
    ∀ e : Entry, e.1 ≠ name →
      (replace_in_zip zip name content).count e = zip.count e :=
  ⟨replace_filter_self zip name content,
    replace_filter_ne_nodup zip name content hnd,
    fun e he => replace_count_ne_nodup zip name content e hnd he⟩

/-- Witness for C2 at a concrete archive with distinct names: the entry
under `"b"` survives a replacement of `"a"` with its multiplicity. -/
theorem replace_in_zip_correct_witness :
    (zipNames [("a", "1"), ("b", "2")]).Nodup ∧
    (("b", "2") : Entry).1 ≠ "a" ∧
    (replace_in_zip [("a", "1"), ("b", "2")] "a" "9").count ("b", "2") =
      ([("a", "1"), ("b", "2")] : Zip).count ("b", "2") :=
  ⟨by decide, by decide,
    (replace_in_zip_correct [("a", "1"), ("b", "2")] "a" "9"
      (by decide)).2.2 ("b", "2") (by decide)⟩

/-- C4: if an archive has no two entries sharing a filename, then after
`replace_in_zip zip name content` the filenames are still pairwise
distinct, and the unique entry under `name` is `content` (last write
wins). -/
theorem replace_in_zip_unique_names (zip : Zip) (name content : String)
    (h : (zipNames zip).Nodup) :
    (zipNames (replace_in_zip zip name content)).Nodup ∧
    (replace_in_zip zip name content).filter (fun e => e.1 == name) =
      [(name, content)] :=
  ⟨replace_names_nodup zip name content h,
    replace_filter_self zip name content⟩

/-- Witness for C4 at a concrete archive with distinct names. -/
theorem replace_in_zip_unique_names_witness :
    (zipNames [("a", "1"), ("b", "2")]).Nodup ∧
    (zipNames (replace_in_zip [("a", "1"), ("b", "2")] "a" "9")).Nodup :=
  ⟨by decide,
    (replace_in_zip_unique_names [("a", "1"), ("b", "2")] "a" "9"
      (by decide)).1⟩

/-- C3: in every filesystem state `replace_in_zip` passes through before
the final rename (all states but the last), the archive at `zip_path` is
the unchanged original, so an interruption anywhere before the rename
leaves the original archive intact; the last state, produced by the
rename, holds exactly `replace_in_zip zip filename content` and no
temporary file. -/
theorem replace_in_zip_atomic (zip : Zip) (filename content : String) :
    (∀ fs ∈ (replaceStates zip filename content).dropLast, fs.main = zip) ∧
    (replaceStates zip filename content).getLast? =
      some ⟨replace_in_zip zip filename content, none⟩ := by
  have hsplit : replaceStates zip filename content =
      (⟨zip, none⟩ ::
        ((List.range (zip.length + 1)).map fun j =>
          ⟨zip, some (((zip.take j).filter fun item => item.1 != filename).map
            fun item => (item.1, readByName zip item.1))⟩) ++
        [⟨zip, some (((zip.filter fun item => item.1 != filename).map
          fun item => (item.1, readByName zip item.1)) ++
          [(filename, content)])⟩]) ++
      [⟨replace_in_zip zip filename content, none⟩] := by
    simp [replaceStates]
  constructor
  · intro fs hfs
    rw [hsplit, List.dropLast_concat] at hfs
    rcases List.mem_cons.mp hfs with h1 | h2
    · rw [h1]
    · rcases List.mem_append.mp h2 with h3 | h4
      · rcases List.mem_map.mp h3 with ⟨j, _, rfl⟩
        rfl
      · rw [List.mem_singleton.mp h4]
  · rw [hsplit, List.getLast?_concat]

/-- Witness for C3 at a concrete archive: the state reached after copying
the first entry still shows the original archive at `zip_path`. -/
theorem replace_in_zip_atomic_witness :
    (⟨[("a", "1")], some []⟩ : FileSystem) ∈
      (replaceStates [("a", "1")] "a" "9").dropLast ∧
    (FileSystem.mk [("a", "1")] (some [])).main = [("a", "1")] :=
  ⟨by decide,
    (replace_in_zip_atomic [("a", "1")] "a" "9").1 ⟨[("a", "1")], some []⟩
      (by decide)⟩

end PdfConv

namespace PdfConv

/-! ### Helper lemmas about the batch loop -/

lemma step_eq (c : String → String) (sfx : String) (st : BatchState) (r : Row) :
    step c sfx st r =
      if isBlank (c (urlOf r)) then
        { st with trace := st.trace ++ [(urlOf r, fileName sfx r)] }
      else
        { zip := replace_in_zip st.zip (fileName sfx r) (c (urlOf r)),
          existing := st.existing ++ [fileName sfx r],
          trace := st.trace ++ [(urlOf r, fileName sfx r)] } := rfl

lemma step_trace (c : String → String) (sfx : String) (st : BatchState)
    (r : Row) :
    (step c sfx st r).trace = st.trace ++ [(urlOf r, fileName sfx r)] := by
  rw [step_eq]
  split <;> rfl

lemma foldl_step_trace (c : String → String) (sfx : String) :
    ∀ (rows : List Row) (st : BatchState),
      (rows.foldl (step c sfx) st).trace =
        st.trace ++ (rows.map fun r => (urlOf r, fileName sfx r))
  | [], st => by simp
  | r :: rs, st => by
    rw [List.foldl_cons, foldl_step_trace c sfx rs, step_trace, List.map_cons,
      List.append_assoc, List.singleton_append]

lemma foldl_step_zip_fresh (c : String → String) (sfx : String) :
    ∀ (rows : List Row) (st : BatchState),
      (zipNames st.zip).Nodup →
      ((rows.map (fileName sfx)).Nodup) →
      (∀ r ∈ rows, fileName sfx r ∉ zipNames st.zip) →
      (rows.foldl (step c sfx) st).zip = st.zip ++ writesOf c sfx rows
  | [], st, _, _, _ => by simp [writesOf]
  | r :: rs, st, hznd, hnd, hdisj => by
    rw [List.foldl_cons, step_eq]
    rw [List.map_cons] at hnd
    rcases List.nodup_cons.mp hnd with ⟨hr, hnd2⟩
    cases hb : isBlank (c (urlOf r))
    · rw [if_neg (by simp [hb])]
      have hzip : replace_in_zip st.zip (fileName sfx r) (c (urlOf r)) =
          st.zip ++ [(fileName sfx r, c (urlOf r))] := by
        rw [replace_in_zip_nodup_eq _ _ _ hznd,
          filter_ne_of_not_mem st.zip _ (hdisj r (List.mem_cons_self r rs))]
      have hnames : zipNames (replace_in_zip st.zip (fileName sfx r)
          (c (urlOf r))) = zipNames st.zip ++ [fileName sfx r] :=
        zipNames_replace_fresh _ _ _ (hdisj r (List.mem_cons_self r rs))
      have hrec := foldl_step_zip_fresh c sfx rs
        { st with
          zip := replace_in_zip st.zip (fileName sfx r) (c (urlOf r)),
          existing := st.existing ++ [fileName sfx r],
          trace := st.trace ++ [(urlOf r, fileName sfx r)] }
        (replace_names_nodup _ _ _ hznd) hnd2 ?_
      · rw [hrec]
        show replace_in_zip st.zip (fileName sfx r) (c (urlOf r)) ++ _ =
          st.zip ++ writesOf c sfx (r :: rs)
        rw [hzip]
        have hw : writesOf c sfx (r :: rs) =
            (fileName sfx r, c (urlOf r)) :: writesOf c sfx rs := by
          unfold writesOf
          rw [List.filterMap_cons_some
            (b := (fileName sfx r, c (urlOf r))) (by simp [hb])]
        rw [hw, List.append_assoc, List.singleton_append]
      · intro x hx
        show fileName sfx x ∉ zipNames (replace_in_zip st.zip _ _)
        rw [hnames]
        apply List.not_mem_append (hdisj x (List.mem_cons_of_mem r hx))
        simp only [List.mem_singleton]
        intro hcontra
        exact hr (hcontra ▸ List.mem_map_of_mem (fileName sfx) hx)
    · rw [if_pos (by simp [hb])]
      have hrec := foldl_step_zip_fresh c sfx rs
        { st with trace := st.trace ++ [(urlOf r, fileName sfx r)] } hznd hnd2
        (fun x hx => hdisj x (List.mem_cons_of_mem r hx))
      rw [hrec]
      show st.zip ++ _ = st.zip ++ writesOf c sfx (r :: rs)
      have hw : writesOf c sfx (r :: rs) = writesOf c sfx rs := by
        unfold writesOf
        rw [List.filterMap_cons_none (by simp [hb])]
      rw [hw]

lemma foldl_step_zipNames (c : String → String) (sfx : String) :
    ∀ (rows : List Row) (st : BatchState),
      ((rows.map (fileName sfx)).Nodup) →
      (∀ r ∈ rows, fileName sfx r ∉ zipNames st.zip) →
      zipNames (rows.foldl (step c sfx) st).zip =
        zipNames st.zip ++ zipNames (writesOf c sfx rows)
  | [], st, _, _ => by simp [writesOf, zipNames]
  | r :: rs, st, hnd, hdisj => by
    rw [List.foldl_cons, step_eq]
    rw [List.map_cons] at hnd
    rcases List.nodup_cons.mp hnd with ⟨hr, hnd2⟩
    cases hb : isBlank (c (urlOf r))
    · rw [if_neg (by simp [hb])]
      have hnames : zipNames (replace_in_zip st.zip (fileName sfx r)
          (c (urlOf r))) = zipNames st.zip ++ [fileName sfx r] :=
        zipNames_replace_fresh _ _ _ (hdisj r (List.mem_cons_self r rs))
      have hrec := foldl_step_zipNames c sfx rs
        { st with
          zip := replace_in_zip st.zip (fileName sfx r) (c (urlOf r)),
          existing := st.existing ++ [fileName sfx r],
          trace := st.trace ++ [(urlOf r, fileName sfx r)] }
        hnd2 ?_
      · rw [hrec]
        show zipNames (replace_in_zip st.zip (fileName sfx r) (c (urlOf r)))
            ++ _ = zipNames st.zip ++ zipNames (writesOf c sfx (r :: rs))
        rw [hnames]
        have hw : writesOf c sfx (r :: rs) =
            (fileName sfx r, c (urlOf r)) :: writesOf c sfx rs := by
          unfold writesOf
          rw [List.filterMap_cons_some
            (b := (fileName sfx r, c (urlOf r))) (by simp [hb])]
        rw [hw]
        show zipNames st.zip ++ [fileName sfx r] ++
            zipNames (writesOf c sfx rs) =
          zipNames st.zip ++
            (fileName sfx r :: zipNames (writesOf c sfx rs))
        rw [List.append_assoc, List.singleton_append]
      · intro x hx
        show fileName sfx x ∉ zipNames (replace_in_zip st.zip _ _)
        rw [hnames]
        apply List.not_mem_append (hdisj x (List.mem_cons_of_mem r hx))
        simp only [List.mem_singleton]
        intro hcontra
        exact hr (hcontra ▸ List.mem_map_of_mem (fileName sfx) hx)
    · rw [if_pos (by simp [hb])]
      have hrec := foldl_step_zipNames c sfx rs
        { st with trace := st.trace ++ [(urlOf r, fileName sfx r)] } hnd2
        (fun x hx => hdisj x (List.mem_cons_of_mem r hx))
      rw [hrec]
      show zipNames st.zip ++ _ =
        zipNames st.zip ++ zipNames (writesOf c sfx (r :: rs))
      have hw : writesOf c sfx (r :: rs) = writesOf c sfx rs := by
        unfold writesOf
        rw [List.filterMap_cons_none (by simp [hb])]
      rw [hw]

lemma foldl_step_zip_mem (c : String → String) (sfx : String) :
    ∀ (rows : List Row) (st : BatchState) (e : Entry),
      e ∈ (rows.foldl (step c sfx) st).zip →
      e ∈ st.zip ∨ ∃ r ∈ rows, e.1 = fileName sfx r
  | [], _, _, h => Or.inl h
  | r :: rs, st, e, h => by
    rw [List.foldl_cons, step_eq] at h
    cases hb : isBlank (c (urlOf r))
    · rw [if_neg (by simp [hb])] at h
      rcases foldl_step_zip_mem c sfx rs _ e h with h1 | ⟨x, hx, hfx⟩
      · rcases replace_in_zip_mem_entry st.zip (fileName sfx r)
          (c (urlOf r)) e h1 with h2 | h3
        · exact Or.inl h2
        · refine Or.inr ⟨r, List.mem_cons_self r rs, ?_⟩
          rw [h3]
      · exact Or.inr ⟨x, List.mem_cons_of_mem r hx, hfx⟩
    · rw [if_pos (by simp [hb])] at h
      rcases foldl_step_zip_mem c sfx rs _ e h with h1 | ⟨x, hx, hfx⟩
      · exact Or.inl h1
      · exact Or.inr ⟨x, List.mem_cons_of_mem r hx, hfx⟩

lemma foldl_step_zip_blank (c : String → String) (sfx : String) :
    ∀ (rows : List Row) (st : BatchState),
      (∀ r ∈ rows, isBlank (c (urlOf r)) = true) →
      (rows.foldl (step c sfx) st).zip = st.zip
  | [], _, _ => rfl
  | r :: rs, st, h => by
    rw [List.foldl_cons, step_eq, if_pos (by simp [h r (List.mem_cons_self r rs)])]
    exact foldl_step_zip_blank c sfx rs _
      fun x hx => h x (List.mem_cons_of_mem r hx)

lemma fileName_mem_writesOf (c : String → String) (sfx : String)
    (rows : List Row) (r : Row) (hr : r ∈ rows)
    (hb : isBlank (c (urlOf r)) = false) :
    fileName sfx r ∈ zipNames (writesOf c sfx rows) := by
  have : (fileName sfx r, c (urlOf r)) ∈ writesOf c sfx rows := by
    rw [writesOf, List.mem_filterMap]
    exact ⟨r, hr, by simp [hb]⟩
  exact List.mem_map_of_mem Prod.fst this

end PdfConv

namespace PdfConv

/-! ### Helper lemmas about `dedupBy` and the row filters -/

lemma mem_dedupBy (key : Row → String) :
    ∀ (rows : List Row) (seen : List String) (r : Row),
      r ∈ dedupBy key rows seen ↔
        key r ∉ seen ∧ rows.find? (fun x => key x == key r) = some r
  | [], seen, r => by simp [dedupBy]
  | x :: xs, seen, r => by
    unfold dedupBy
    cases hc : seen.contains (key x)
    · rw [if_neg (by simp [hc])]
      have hxseen : key x ∉ seen := by
        intro hmem
        rw [← List.elem_iff] at hmem
        exact absurd hmem (by simp [List.contains] at hc; simp [hc])
      cases hk : key x == key r
      · have hkne : key x ≠ key r := by simpa using hk
        rw [List.find?_cons_of_neg _ (by simp [hk])]
        rw [List.mem_cons, mem_dedupBy key xs (key x :: seen) r]
        constructor
        · rintro (rfl | ⟨hnotin, hfind⟩)
          · exact absurd rfl hkne
          · exact ⟨fun hmem => hnotin (List.mem_cons_of_mem _ hmem), hfind⟩
        · rintro ⟨hnotin, hfind⟩
          right
          refine ⟨?_, hfind⟩
          intro hmem
          rcases List.mem_cons.mp hmem with heq | hmem2
          · exact hkne heq.symm
          · exact hnotin hmem2
      · have hkeq : key x = key r := by simpa using hk
        rw [List.find?_cons_of_pos _ (by simp [hk])]
        rw [List.mem_cons, mem_dedupBy key xs (key x :: seen) r]
        constructor
        · rintro (rfl | ⟨hnotin, _⟩)
          · exact ⟨hkeq ▸ hxseen, rfl⟩
          · exact absurd (hkeq ▸ List.mem_cons_self (key x) seen)
              (hkeq ▸ hnotin)
        · rintro ⟨_, hx⟩
          exact Or.inl (Option.some.inj hx).symm
    · rw [if_pos (by simp [hc])]
      have hxseen : key x ∈ seen := by
        rw [← List.elem_iff]
        exact hc
      cases hk : key x == key r
      · rw [List.find?_cons_of_neg _ (by simp [hk])]
        exact mem_dedupBy key xs seen r
      · have hkeq : key x = key r := by simpa using hk
        rw [List.find?_cons_of_pos _ (by simp [hk])]
        rw [mem_dedupBy key xs seen r]
        constructor
        · rintro ⟨hnotin, _⟩
          exact absurd (hkeq ▸ hxseen) hnotin
        · rintro ⟨hnotin, hx⟩
          have : x = r := Option.some.inj hx
          exact absurd (hkeq ▸ hxseen) hnotin

lemma contains_eq_false_iff (l : List String) (a : String) :
    l.contains a = false ↔ a ∉ l := by
  simp [List.contains]

lemma dedupBy_subset (key : Row → String) (rows : List Row)
    (seen : List String) (r : Row) (h : r ∈ dedupBy key rows seen) :
    r ∈ rows :=
  List.mem_of_find?_eq_some ((mem_dedupBy key rows seen r).mp h).2

lemma dedupBy_keys_nodup (key : Row → String) :
    ∀ (rows : List Row) (seen : List String),
      ((dedupBy key rows seen).map key).Nodup ∧
        ∀ f ∈ (dedupBy key rows seen).map key, f ∉ seen
  | [], seen => by simp [dedupBy]
  | x :: xs, seen => by
    unfold dedupBy
    cases hc : seen.contains (key x)
    · rw [if_neg (by simp [hc])]
      rcases dedupBy_keys_nodup key xs (key x :: seen) with ⟨hnd, hout⟩
      rw [List.map_cons]
      constructor
      · rw [List.nodup_cons]
        exact ⟨fun hmem => (hout _ hmem) (List.mem_cons_self _ _), hnd⟩
      · intro f hf
        rcases List.mem_cons.mp hf with rfl | hf2
        · exact (contains_eq_false_iff seen (key x)).mp hc
        · exact fun hmem => (hout f hf2) (List.mem_cons_of_mem _ hmem)
    · rw [if_pos (by simp [hc])]
      rcases dedupBy_keys_nodup key xs seen with ⟨hnd, hout⟩
      exact ⟨hnd, hout⟩

lemma find?_filter_of_key_true (key : Row → String) (f : String)
    (p q : Row → Bool) (hp : ∀ x, key x = f → p x = true)
    (hq : ∀ x, key x = f → q x = true) :
    ∀ rows : List Row,
      ((rows.filter p).find? fun r => key r == f) =
        ((rows.filter q).find? fun r => key r == f)
  | [] => rfl
  | x :: xs => by
    by_cases hk : key x = f
    · rw [List.filter_cons, List.filter_cons, if_pos (by simp [hp x hk]),
        if_pos (by simp [hq x hk]), List.find?_cons_of_pos _ (by simp [hk]),
        List.find?_cons_of_pos _ (by simp [hk])]
    · rw [List.filter_cons, List.filter_cons]
      have hstep : ∀ (b : Bool) (l : List Row),
          ((if b = true then x :: l else l).find? fun r => key r == f) =
            l.find? fun r => key r == f := by
        intro b l
        cases b
        · rw [if_neg (by simp)]
        · rw [if_pos rfl, List.find?_cons_of_neg _ (by simp [hk])]
      rw [hstep, hstep]
      exact find?_filter_of_key_true key f p q hp hq xs

end PdfConv

namespace PdfConv

/-! ### Lemmas about `survivors`, `finalRows` and `runBatch` -/

lemma survivors_false (df : List Row) (existing : List String)
    (sfx : String) :
    survivors df existing false sfx =
      (validRows df).filter fun r => !(existing.contains (fileName sfx r)) :=
  rfl

lemma mem_survivors_false_not_mem (df : List Row) (existing : List String)
    (sfx : String) (r : Row) (h : r ∈ survivors df existing false sfx) :
    fileName sfx r ∉ existing := by
  rw [survivors_false] at h
  have h2 := (List.mem_filter.mp h).2
  rw [Bool.not_eq_true'] at h2
  exact (contains_eq_false_iff existing (fileName sfx r)).mp h2

lemma finalRows_keys_nodup (df : List Row) (existing : List String)
    (replace_all : Bool) (sfx : String) :
    ((finalRows df existing replace_all sfx).map (fileName sfx)).Nodup :=
  (dedupBy_keys_nodup (fileName sfx)
    (survivors df existing replace_all sfx) []).1

lemma finalRows_subset (df : List Row) (existing : List String)
    (replace_all : Bool) (sfx : String) (r : Row)
    (h : r ∈ finalRows df existing replace_all sfx) :
    r ∈ survivors df existing replace_all sfx :=
  dedupBy_subset (fileName sfx) _ [] r h

lemma finalRows_false_not_mem (df : List Row) (existing : List String)
    (sfx : String) (r : Row) (h : r ∈ finalRows df existing false sfx) :
    fileName sfx r ∉ existing :=
  mem_survivors_false_not_mem df existing sfx r (finalRows_subset _ _ _ _ _ h)

lemma runBatch_trace (c : String → String) (df : List Row) (sfx : String)
    (zip0 : Zip) (replace_all : Bool) :
    (runBatch c df sfx zip0 replace_all).trace =
      (finalRows df (zipNames zip0) replace_all sfx).map
        fun r => (urlOf r, fileName sfx r) := by
  unfold runBatch
  rw [foldl_step_trace]
  rfl

lemma runBatch_zip_false (c : String → String) (df : List Row)
    (sfx : String) (zip0 : Zip) (hnd : (zipNames zip0).Nodup) :
    (runBatch c df sfx zip0 false).zip =
      zip0 ++ writesOf c sfx (finalRows df (zipNames zip0) false sfx) := by
  unfold runBatch
  exact foldl_step_zip_fresh c sfx _ _ hnd
    (finalRows_keys_nodup df (zipNames zip0) false sfx)
    (fun r hr => finalRows_false_not_mem df (zipNames zip0) sfx r hr)

lemma runBatch_zipNames_false (c : String → String) (df : List Row)
    (sfx : String) (zip0 : Zip) :
    zipNames (runBatch c df sfx zip0 false).zip =
      zipNames zip0 ++
        zipNames (writesOf c sfx (finalRows df (zipNames zip0) false sfx)) := by
  unfold runBatch
  exact foldl_step_zipNames c sfx _ _
    (finalRows_keys_nodup df (zipNames zip0) false sfx)
    (fun r hr => finalRows_false_not_mem df (zipNames zip0) sfx r hr)

lemma runBatch_idem (c : String → String) (df : List Row) (sfx : String)
    (zip0 : Zip) :
    (runBatch c df sfx (runBatch c df sfx zip0 false).zip false).zip =
      (runBatch c df sfx zip0 false).zip := by
  have hnames : zipNames (runBatch c df sfx zip0 false).zip =
      zipNames zip0 ++
        zipNames (writesOf c sfx (finalRows df (zipNames zip0) false sfx)) :=
    runBatch_zipNames_false c df sfx zip0
  have hblank : ∀ r ∈ finalRows df
      (zipNames (runBatch c df sfx zip0 false).zip) false sfx,
      isBlank (c (urlOf r)) = true := by
    intro r hr
    have hfind2 := ((mem_dedupBy (fileName sfx) _ [] r).mp hr).2
    have hrS2 := List.mem_of_find?_eq_some hfind2
    have hnot1 := mem_survivors_false_not_mem df _ sfx r hrS2
    have hnot0 : fileName sfx r ∉ zipNames zip0 := fun hmem =>
      hnot1 (hnames ▸ List.mem_append_left _ hmem)
    have hnotW : fileName sfx r ∉
        zipNames (writesOf c sfx (finalRows df (zipNames zip0) false sfx)) :=
      fun hmem => hnot1 (hnames ▸ List.mem_append_right _ hmem)
    rw [survivors_false] at hfind2
    have htrans := find?_filter_of_key_true (fileName sfx) (fileName sfx r)
      (fun x => !((zipNames (runBatch c df sfx zip0 false).zip).contains
        (fileName sfx x)))
      (fun x => !((zipNames zip0).contains (fileName sfx x)))
      (fun x hx => by
        rw [Bool.not_eq_true', hx, contains_eq_false_iff]
        exact hnot1)
      (fun x hx => by
        rw [Bool.not_eq_true', hx, contains_eq_false_iff]
        exact hnot0)
      (validRows df)
    rw [htrans] at hfind2
    have hr1 : r ∈ finalRows df (zipNames zip0) false sfx := by
      rw [finalRows, mem_dedupBy]
      exact ⟨by simp, by rw [survivors_false]; exact hfind2⟩
    cases hbl : isBlank (c (urlOf r))
    · exact absurd (fileName_mem_writesOf c sfx _ r hr1 hbl) hnotW
    · rfl
  exact foldl_step_zip_blank c sfx
    (finalRows df (zipNames (runBatch c df sfx zip0 false).zip) false sfx)
    ⟨(runBatch c df sfx zip0 false).zip,
      zipNames (runBatch c df sfx zip0 false).zip, []⟩ hblank

end PdfConv

namespace PdfConv

lemma survivors_subset_valid (df : List Row) (existing : List String)
    (replace_all : Bool) (sfx : String) (r : Row)
    (h : r ∈ survivors df existing replace_all sfx) : r ∈ validRows df := by
  unfold survivors at h
  cases replace_all
  · rw [if_neg (by simp)] at h
    exact (List.mem_filter.mp h).1
  · rwa [if_pos rfl] at h

lemma mem_validRows (df : List Row) (r : Row) (h : r ∈ validRows df) :
    r ∈ df ∧ r.nameVal.isSome = true ∧ r.urlVal.isSome = true ∧
      0 < (r.urlVal.getD "").length := by
  rcases List.mem_filter.mp h with ⟨h1, h2⟩
  rcases List.mem_filter.mp h1 with ⟨h3, h4⟩
  have h5 : r.nameVal.isSome = true ∧ r.urlVal.isSome = true := by
    simpa using h4
  exact ⟨h3, h5.1, h5.2, of_decide_eq_true h2⟩

/-- C1: running `create_markdown_from_column` twice with the same
arguments and `force_replace=False`, with download and conversion treated
as a deterministic function of the URL, yields after the second run an
archive identical to the archive after the first run: no entry is added,
removed, or changed by the second run. -/
theorem batch_idempotent (convert : String → String) (df : List Row)
    (method : String) (zip0 : Zip) :
    (create_markdown_from_column convert df method
        (create_markdown_from_column convert df method zip0 false).state.zip
        false).state.zip =
      (create_markdown_from_column convert df method zip0 false).state.zip :=
  runBatch_idem convert df ("_" ++ method ++ ".md") zip0

/-- C8: if the download fails, or the conversion subprocess times out,
raises, or exits with non-zero status, `convert_pdf_to_md` returns the
empty string rather than raising; consequently a loop iteration whose
conversion returns the empty string writes no archive entry, leaves the
in-memory name set unchanged, and only extends the trace (the loop
continues with the next row, leaving the row retryable). -/
theorem per_row_error_soft (fetch : FetchOutcome) (run : SubprocOutcome)
    (h : fetch = FetchOutcome.fail ∨ run = SubprocOutcome.timedOut ∨
      run = SubprocOutcome.raised ∨
      ∃ rc out err, run = SubprocOutcome.finished rc out err ∧ rc ≠ 0) :
    convert_pdf_to_md fetch run = "" ∧
    ∀ (convert : String → String) (sfx : String) (st : BatchState) (r : Row),
      convert (urlOf r) = "" →
      (step convert sfx st r).zip = st.zip ∧
      (step convert sfx st r).existing = st.existing ∧
      (step convert sfx st r).trace =
        st.trace ++ [(urlOf r, fileName sfx r)] := by
  constructor
  · cases fetch
    · rcases h with h1 | h2 | h3 | ⟨rc, out, err, hrun, hrc⟩
      · exact absurd h1 (by simp)
      · rw [h2]
        rfl
      · rw [h3]
        rfl
      · rw [hrun]
        show (if rc != 0 then "" else out) = ""
        rw [if_pos (by simpa using hrc)]
    · rfl
  · intro convert sfx st r hcv
    have hbl : isBlank (convert (urlOf r)) = true := by rw [hcv]; rfl
    rw [step_eq, if_pos (by simp [hbl])]
    exact ⟨rfl, rfl, rfl⟩

/-- Witness for C8: a failed download yields the empty string, and an
iteration with empty conversion output leaves the archive unchanged. -/
theorem per_row_error_soft_witness :
    (FetchOutcome.fail = FetchOutcome.fail ∨
      SubprocOutcome.timedOut = SubprocOutcome.timedOut ∨
      SubprocOutcome.timedOut = SubprocOutcome.raised ∨
      ∃ rc out err,
        SubprocOutcome.timedOut = SubprocOutcome.finished rc out err ∧
          rc ≠ 0) ∧
    convert_pdf_to_md FetchOutcome.fail SubprocOutcome.timedOut = "" ∧
    (step (fun _ => "") "_m.md" ⟨[], [], []⟩ ⟨some "a", some "u"⟩).zip =
      ([] : Zip) :=
  ⟨Or.inl rfl,
    (per_row_error_soft FetchOutcome.fail SubprocOutcome.timedOut
      (Or.inl rfl)).1,
    ((per_row_error_soft FetchOutcome.fail SubprocOutcome.timedOut
      (Or.inl rfl)).2 (fun _ => "") "_m.md" ⟨[], [], []⟩
      ⟨some "a", some "u"⟩ rfl).1⟩

/-- C6 as stated is false: both input rows derive the target filename
`"a_m.md"`, yet the row that is fetched and converted is the second — a
later duplicate — because the first occurrence is dropped by the URL
filter, so "the first occurrence in input order" is not the one
processed. -/
theorem dedup_counterexample :
    fileName "_m.md" ⟨some "a", some ""⟩ =
      fileName "_m.md" ⟨some "a", some "u"⟩ ∧
    ("u", "a_m.md") ∈ (create_markdown_from_column (fun _ => "x")
        [⟨some "a", some ""⟩, ⟨some "a", some "u"⟩] "m" []
        false).state.trace ∧
    ("", "a_m.md") ∉ (create_markdown_from_column (fun _ => "x")
        [⟨some "a", some ""⟩, ⟨some "a", some "u"⟩] "m" []
        false).state.trace := by
  decide

/-- C6 corrected: within a single run at most one row per derived target
filename is fetched and converted (the trace's filenames are pairwise
distinct), and every converted row is the first row carrying its filename
among the rows that pass the validity and cache filters (`survivors`) —
not necessarily the first among all input rows mapping to that filename,
since earlier duplicates may be discarded by those filters. -/
theorem dedup_first_survivor (convert : String → String) (df : List Row)
    (method : String) (zip0 : Zip) (replace_all : Bool) :
    ((create_markdown_from_column convert df method zip0
        replace_all).state.trace.map Prod.snd).Nodup ∧
    ∀ p ∈ (create_markdown_from_column convert df method zip0
        replace_all).state.trace,
      ∃ r, (survivors df (zipNames zip0) replace_all
          ("_" ++ method ++ ".md")).find?
          (fun x => fileName ("_" ++ method ++ ".md") x == p.2) = some r ∧
        p = (urlOf r, fileName ("_" ++ method ++ ".md") r) := by
  simp only [create_markdown_from_column]
  constructor
  · rw [runBatch_trace, List.map_map]
    have hcomp : List.map
        (Prod.snd ∘ fun r => (urlOf r, fileName ("_" ++ method ++ ".md") r))
        (finalRows df (zipNames zip0) replace_all ("_" ++ method ++ ".md")) =
        List.map (fileName ("_" ++ method ++ ".md"))
        (finalRows df (zipNames zip0) replace_all ("_" ++ method ++ ".md")) :=
      List.map_congr_left fun r _ => rfl
    rw [hcomp]
    exact finalRows_keys_nodup df (zipNames zip0) replace_all _
  · intro p hp
    rw [runBatch_trace] at hp
    rcases List.mem_map.mp hp with ⟨r, hr, rfl⟩
    exact ⟨r,
      ((mem_dedupBy (fileName ("_" ++ method ++ ".md")) _ [] r).mp hr).2, rfl⟩

/-- Witness for C6's corrected statement at a one-row table. -/
theorem dedup_first_survivor_witness :
    ("u", "a_m.md") ∈ (create_markdown_from_column (fun _ => "x")
        [⟨some "a", some "u"⟩] "m" [] false).state.trace ∧
    ∃ r, (survivors [⟨some "a", some "u"⟩] (zipNames []) false
        ("_" ++ "m" ++ ".md")).find?
        (fun x => fileName ("_" ++ "m" ++ ".md") x ==
          (("u", "a_m.md") : String × String).2) = some r ∧
      (("u", "a_m.md") : String × String) =
        (urlOf r, fileName ("_" ++ "m" ++ ".md") r) :=
  ⟨by decide,
    (dedup_first_survivor (fun _ => "x") [⟨some "a", some "u"⟩] "m" []
      false).2 ("u", "a_m.md") (by decide)⟩

/-- C7 as stated is false: a row whose naming-key value is the empty
string (present but empty) and whose URL is non-empty is *not*
discarded — it is fetched and converted, and it produces the archive
entry `"_m.md"` (the sanitized empty name plus the suffix). -/
theorem row_filtering_counterexample :
    ("u", "_m.md") ∈ (create_markdown_from_column (fun _ => "x")
        [⟨some "", some "u"⟩] "m" [] false).state.trace ∧
    ("_m.md", "x") ∈ (create_markdown_from_column (fun _ => "x")
        [⟨some "", some "u"⟩] "m" [] false).state.zip := by
  decide

/-- C7 corrected: rows with a missing (NaN) URL or naming-key cell, or
with an empty URL string, are discarded before processing — every fetched
row has both cells present and a non-empty URL, and every archive entry
after a run is either a prior entry or carries a fetched row's filename.
A present-but-empty naming-key string is not discarded: only the URL
column is tested for emptiness. -/
theorem row_filtering (convert : String → String) (df : List Row)
    (method : String) (zip0 : Zip) (replace_all : Bool) :
    (∀ p ∈ (create_markdown_from_column convert df method zip0
        replace_all).state.trace,
      ∃ r ∈ df, r.nameVal.isSome = true ∧ r.urlVal.isSome = true ∧
        0 < (r.urlVal.getD "").length ∧
        p = (urlOf r, fileName ("_" ++ method ++ ".md") r)) ∧
    ∀ e ∈ (create_markdown_from_column convert df method zip0
        replace_all).state.zip,
      e ∈ zip0 ∨
        ∃ p ∈ (create_markdown_from_column convert df method zip0
          replace_all).state.trace, e.1 = p.2 := by
  simp only [create_markdown_from_column]
  constructor
  · intro p hp
    rw [runBatch_trace] at hp
    rcases List.mem_map.mp hp with ⟨r, hr, rfl⟩
    have hv := mem_validRows df r (survivors_subset_valid df (zipNames zip0)
      replace_all ("_" ++ method ++ ".md") r
      (finalRows_subset df (zipNames zip0) replace_all
        ("_" ++ method ++ ".md") r hr))
    exact ⟨r, hv.1, hv.2.1, hv.2.2.1, hv.2.2.2, rfl⟩
  · intro e he
    rcases foldl_step_zip_mem convert ("_" ++ method ++ ".md")
      (finalRows df (zipNames zip0) replace_all ("_" ++ method ++ ".md"))
      ⟨zip0, zipNames zip0, []⟩ e he with h1 | ⟨r, hr, hfx⟩
    · exact Or.inl h1
    · refine Or.inr ⟨(urlOf r, fileName ("_" ++ method ++ ".md") r), ?_, hfx⟩
      rw [runBatch_trace]
      exact List.mem_map_of_mem _ hr

/-- Witness for C7's corrected statement: the single traced row of a
one-row table has a present name, a present URL, and a non-empty URL. -/
theorem row_filtering_witness :
    ("u", "a_m.md") ∈ (create_markdown_from_column (fun _ => "x")
        [⟨some "a", some "u"⟩] "m" [] false).state.trace ∧
    ∃ r ∈ ([⟨some "a", some "u"⟩] : List Row),
      r.nameVal.isSome = true ∧ r.urlVal.isSome = true ∧
      0 < (r.urlVal.getD "").length ∧
      (("u", "a_m.md") : String × String) =
        (urlOf r, fileName ("_" ++ "m" ++ ".md") r) :=
  ⟨by decide,
    (row_filtering (fun _ => "x") [⟨some "a", some "u"⟩] "m" [] false).1
      ("u", "a_m.md") (by decide)⟩

/-- C9 as stated is false: neither orchestrator returns the updated
table; the Python return value is `None` on every input, exhibited here
at a concrete one. -/
theorem returns_none_counterexample :
    (create_markdown_from_column (fun _ => "x") [⟨some "a", some "u"⟩] "m"
        [] false).ret = none ∧
    (create_text_from_column (fun _ => "x") [⟨some "a", some "u"⟩] "m"
        [] false).ret = none :=
  ⟨rfl, rfl⟩

/-- C9 corrected: `create_markdown_from_column` and
`create_text_from_column` return `None` rather than the updated rows;
their output is delivered through the ZIP archive on disk, which (with
`force_replace=False`, starting from an archive with at most one entry
per filename) is extended by exactly one entry per successfully
converted row, in processing order. -/
theorem batch_returns_none_output_in_archive (convert : String → String)
    (df : List Row) (method : String) (zip0 : Zip)
    (hnd : (zipNames zip0).Nodup) :
    (create_markdown_from_column convert df method zip0 false).ret = none ∧
    (create_markdown_from_column convert df method zip0 false).state.zip =
      zip0 ++ writesOf convert ("_" ++ method ++ ".md")
        (finalRows df (zipNames zip0) false ("_" ++ method ++ ".md")) ∧
    (create_text_from_column convert df method zip0 false).ret = none ∧
    (create_text_from_column convert df method zip0 false).state.zip =
      zip0 ++ writesOf convert ("_" ++ method ++ ".txt")
        (finalRows df (zipNames zip0) false ("_" ++ method ++ ".txt")) :=
  ⟨rfl, runBatch_zip_false convert df ("_" ++ method ++ ".md") zip0 hnd, rfl,
    runBatch_zip_false convert df ("_" ++ method ++ ".txt") zip0 hnd⟩

/-- Witness for C9's corrected statement at a one-row table over the
empty archive: the Markdown orchestrator returns `None` and its archive
is the written entries appended to the (empty) prior archive. -/
theorem batch_returns_none_output_witness :
    (zipNames ([] : Zip)).Nodup ∧
    (create_markdown_from_column (fun _ => "x") [⟨some "a", some "u"⟩] "m"
        [] false).ret = none ∧
    (create_markdown_from_column (fun _ => "x") [⟨some "a", some "u"⟩] "m"
        [] false).state.zip =
      [] ++ writesOf (fun _ => "x") ("_" ++ "m" ++ ".md")
        (finalRows [⟨some "a", some "u"⟩] (zipNames []) false
          ("_" ++ "m" ++ ".md")) :=
  ⟨by decide,
    (batch_returns_none_output_in_archive (fun _ => "x")
      [⟨some "a", some "u"⟩] "m" [] (by decide)).1,
    (batch_returns_none_output_in_archive (fun _ => "x")
      [⟨some "a", some "u"⟩] "m" [] (by decide)).2.1⟩

end PdfConv
